import Mathlib

/-!
Shallow embedding of `abc_merfish_analysis` (diversity_metrics.py and
diversity_plots.py) and proofs about its per-region diversity statistics.

Modelling conventions:
* A categorical sample (a pandas Series of labels) is a `List α` — a finite
  multiset whose order is irrelevant to every statistic.
* Exact rational arithmetic (`ℚ`) stands in for floating point.
* `np.log2` is abstracted as an explicit function parameter `log2 : ℚ → ℚ`
  (its numeric values are irrelevant to all claims treated here).
* A dataframe of observations is a `List (Row α)`: each row carries its CCF
  region label and a lookup `label : String → α` giving the row's taxonomy
  label at each taxonomy-level column name.
* pandas `groupby` sorts group keys; here group keys are taken in first
  occurrence order via `dedup`.  All claims below are about the *set* of
  rows/columns and their values, never about sort order, so this is faithful.
* Tables keyed by a row index are association lists
  `List (String × List (String × ℚ))` (row label ↦ column name ↦ value).
-/

namespace AbcMerfish

variable {α : Type} [DecidableEq α]

/-- `x.value_counts()`: one entry per distinct label, with its occurrence
count, for a series `x`. -/
def value_counts (x : List α) : List (α × Nat) :=
  x.dedup.map (fun c => (c, x.count c))

/-- `count_unique(x) = len(x.unique())`. -/
def count_unique (x : List α) : Nat := x.dedup.length

/-- `count_unique_norm(x) = len(x.unique())/len(x)`.  Python raises
`ZeroDivisionError` on an empty series, hence the `Option`. -/
def count_unique_norm (x : List α) : Option ℚ :=
  if x.length = 0 then none
  else some ((count_unique x : ℚ) / (x.length : ℚ))

/-- `count_gt5(x) = len(x.value_counts().loc[lambda c: c>5])`. -/
def count_gt5 (x : List α) : Nat :=
  ((value_counts x).filter (fun p => 5 < p.2)).length

/-- The denominator `np.sum((x.value_counts().loc[lambda c: c>0]/len(x))**2)`
of the inverse Simpson index. -/
def simpsons_denom (x : List α) : ℚ :=
  (((value_counts x).filter (fun p => 0 < p.2)).map
    (fun p => ((p.2 : ℚ) / (x.length : ℚ)) ^ 2)).sum

/-- `inverse_simpsons_index(x) = 1/np.sum((x.value_counts().loc[c>0]/len(x))**2)`. -/
def inverse_simpsons_index (x : List α) : ℚ := 1 / simpsons_denom x

/-- `shannon_index(x)`: proportions of the positive-count categories, then
`-(p * log2(p)).sum()`.  `log2` is an explicit parameter (see header). -/
def shannon_index (log2 : ℚ → ℚ) (x : List α) : ℚ :=
  let cateogory_counts := (value_counts x).filter (fun p => 0 < p.2)
  let p := cateogory_counts.map
    (fun q => (q.2 : ℚ) / (cateogory_counts.map (fun r => (r.2 : ℚ))).sum)
  let shannon_ind := (-1) * ((p.map (fun q => q * log2 q)).sum)
  shannon_ind

/-- One observation row: its CCF region label (the `ccf_label` column) and
its taxonomy label at each taxonomy-level column name. -/
structure Row (α : Type) where
  region : String
  label : String → α

/-- Helper for concrete examples: a row whose every taxonomy level holds `c`. -/
def mkRow (g : String) (c : α) : Row α := ⟨g, fun _ => c⟩

/-- `obs_ccf.loc[lambda df: ~df[ccf_label].isin(exclude)]`. -/
def filterExcluded (obs : List (Row α)) (exclude : List String) : List (Row α) :=
  obs.filter (fun r => !(exclude.contains r.region))

/-- The group keys of `groupby(ccf_label, observed=True)` after exclusion:
the distinct non-excluded region labels of `obs`. -/
def regionIndex (obs : List (Row α)) (exclude : List String) : List String :=
  ((filterExcluded obs exclude).map Row.region).dedup

/-- The multiset of level-`lv` labels of the (exclusion-filtered) rows of
region `g`: the sample a statistic is applied to for cell `(g, lv)`. -/
def regionColumn (obs : List (Row α)) (exclude : List String)
    (g : String) (lv : String) : List α :=
  ((filterExcluded obs exclude).filter (fun r => r.region == g)).map
    (fun r => r.label lv)

/-- `get_region_metric`: filter out excluded regions, group by region, apply
`function` to each (region, level) sample, rename columns to
`"{metric_name}_{level}"`, and — when `norm_fcn` is given — divide by
`norm_fcn` of the *unfiltered* whole column `obs_ccf[levels]`. -/
def get_region_metric (obs : List (Row α)) (function : List α → ℚ)
    (metric_name : String) (exclude : List String)
    (norm_fcn : Option (List α → ℚ)) (levels : List String) :
    List (String × List (String × ℚ)) :=
  (regionIndex obs exclude).map (fun g =>
    (g, levels.map (fun lv =>
      (metric_name ++ "_" ++ lv,
        match norm_fcn with
        | none => function (regionColumn obs exclude g lv)
        | some nf =>
            function (regionColumn obs exclude g lv) /
              nf (obs.map (fun r => r.label lv))))))

/-- Default `exclude=['unassigned','TH-unassigned']`. -/
def defaultExclude : List String := ["unassigned", "TH-unassigned"]

/-- Default `levels=['cluster','supertype','subclass']`. -/
def defaultLevels : List String := ["cluster", "supertype", "subclass"]

/-- `pd.concat([t₁, t₂], axis=1)` for two tables sharing the same row index:
each row of `t₁` gains the columns of the like-indexed row of `t₂`. -/
def concatCols (t₁ t₂ : List (String × List (String × ℚ))) :
    List (String × List (String × ℚ)) :=
  t₁.map (fun row => (row.1, row.2 ++ ((t₂.lookup row.1).getD [])))

/-- Lookup of the value at row `g`, column `col` of a table. -/
def tableLookup (t : List (String × List (String × ℚ))) (g col : String) :
    Option ℚ :=
  (t.lookup g).bind (fun cols => cols.lookup col)

/-- `calculate_diversity_metrics`: the seven `get_region_metric` tables
concatenated column-wise, plus the `count_cells` column
(`obs_ccf[ccf_label].value_counts()`, aligned on the region index; note it
counts over the unfiltered observation table). -/
def calculate_diversity_metrics (log2 : ℚ → ℚ) (obs : List (Row α)) :
    List (String × List (String × ℚ)) :=
  let t := concatCols (concatCols (concatCols (concatCols (concatCols (concatCols
    (get_region_metric obs (fun x => (count_unique x : ℚ)) "count"
      defaultExclude none defaultLevels)
    (get_region_metric obs (fun x => (count_unique x : ℚ)) "frac"
      defaultExclude (some (fun x => (count_unique x : ℚ))) defaultLevels))
    (get_region_metric obs (fun x => (count_unique x : ℚ) / (x.length : ℚ))
      "count_norm2cells" defaultExclude none defaultLevels))
    (get_region_metric obs (fun x => (count_gt5 x : ℚ)) "count_gt5"
      defaultExclude none defaultLevels))
    (get_region_metric obs (fun x => (count_gt5 x : ℚ)) "frac_gt5"
      defaultExclude (some (fun x => (count_unique x : ℚ))) defaultLevels))
    (get_region_metric obs inverse_simpsons_index "inverse_simpsons"
      defaultExclude none defaultLevels))
    (get_region_metric obs (shannon_index log2) "shannon_index"
      defaultExclude none defaultLevels)
  t.map (fun row =>
    (row.1, row.2 ++ [("count_cells", ((obs.map Row.region).count row.1 : ℚ))]))

/-! ### `calculate_level_proportions` (diversity_plots.py) -/

/-- Distinct region labels appearing in `obs` (row index of `counts_df`). -/
def lvRegions (obs : List (Row α)) : List String := (obs.map Row.region).dedup

/-- Distinct level-`lv` labels appearing in `obs` (columns of `counts_df`). -/
def lvCats (obs : List (Row α)) (lv : String) : List α :=
  (obs.map (fun r => r.label lv)).dedup

/-- `counts_df.loc[g, c]`: number of cells of region `g` with label `c`. -/
def cellCount (obs : List (Row α)) (lv : String) (g : String) (c : α) : Nat :=
  ((obs.filter (fun r => r.region == g)).map (fun r => r.label lv)).count c

/-- `counts_df.sum(axis=1).loc[g]`: total number of cells of region `g`. -/
def regionSize (obs : List (Row α)) (g : String) : Nat :=
  (obs.filter (fun r => r.region == g)).length

/-- The `to_other` mask: `counts_df <= min_count` when `min_count` is given,
else `fraction_df <= min_frac`. -/
def toOther (obs : List (Row α)) (lv : String) (min_frac : ℚ)
    (min_count : Option Nat) (g : String) (c : α) : Bool :=
  match min_count with
  | some m => cellCount obs lv g c ≤ m
  | none =>
      decide ((cellCount obs lv g c : ℚ) / (regionSize obs g : ℚ) ≤ min_frac)

/-- Count at `(g, c)` after below-threshold cells are zeroed
(`counts_df[~to_other] ... .fillna(0)`). -/
def newCount (obs : List (Row α)) (lv : String) (min_frac : ℚ)
    (min_count : Option Nat) (g : String) (c : α) : Nat :=
  if toOther obs lv min_frac min_count g c then 0 else cellCount obs lv g c

/-- The `other` column: per-region sum of the below-threshold counts. -/
def otherCount (obs : List (Row α)) (lv : String) (min_frac : ℚ)
    (min_count : Option Nat) (g : String) : Nat :=
  ((lvCats obs lv).map (fun c =>
    if toOther obs lv min_frac min_count g c then cellCount obs lv g c
    else 0)).sum

/-- Category columns that survive `counts_df.loc[:,(counts_df!=0).any(axis=0)]`. -/
def keptCats (obs : List (Row α)) (lv : String) (min_frac : ℚ)
    (min_count : Option Nat) : List α :=
  (lvCats obs lv).filter (fun c =>
    (lvRegions obs).any (fun g => newCount obs lv min_frac min_count g c != 0))

/-- Whether the `other` column survives the all-zero-column cleanup. -/
def otherKept (obs : List (Row α)) (lv : String) (min_frac : ℚ)
    (min_count : Option Nat) : Bool :=
  (lvRegions obs).any (fun g => otherCount obs lv min_frac min_count g != 0)

/-- `counts_df.sum(axis=1).loc[g]` after consolidation and column cleanup:
the row total the proportions are divided by. -/
def rowDenom (obs : List (Row α)) (lv : String) (min_frac : ℚ)
    (min_count : Option Nat) (g : String) : ℚ :=
  ((keptCats obs lv min_frac min_count).map
    (fun c => (newCount obs lv min_frac min_count g c : ℚ))).sum +
  (if otherKept obs lv min_frac min_count then
    (otherCount obs lv min_frac min_count g : ℚ) else 0)

/-- `calculate_level_proportions`: cross-tabulated counts with below-threshold
cells consolidated into an `other` column (`none`), all-zero columns dropped,
each row divided by its total.  Surviving original categories appear as
`some c`; the `other` column appears as `none`, last, as `join` places it. -/
def calculate_level_proportions (obs : List (Row α)) (lv : String)
    (min_frac : ℚ) (min_count : Option Nat) :
    List (String × List (Option α × ℚ)) :=
  (lvRegions obs).map (fun g =>
    (g,
      (keptCats obs lv min_frac min_count).map (fun c =>
        (some c,
          (newCount obs lv min_frac min_count g c : ℚ) /
            rowDenom obs lv min_frac min_count g)) ++
      (if otherKept obs lv min_frac min_count then
        [(none,
          (otherCount obs lv min_frac min_count g : ℚ) /
            rowDenom obs lv min_frac min_count g)]
      else [])))

/-! ### Local (neighborhood) metric engine -/

/-- One observation row for the local engine: its pandas index label, the
three CCF coordinate columns, and its taxonomy labels.  The coordinate
values feed only the (abstracted) nearest-neighbor query. -/
structure CellRow (α : Type) where
  id : String
  x_ccf : ℚ
  y_ccf : ℚ
  z_ccf : ℚ
  label : String → α

/-- `calculate_function_locally(i, obs, neighbors, levels, function)`:
apply `function` to the labels of `obs.iloc[neighbors[i]]`, per level.
Columns are still named by level here; renaming happens in the caller. -/
def calculate_function_locally (obs : List (CellRow α))
    (neighbors : Nat → List Nat) (levels : List String)
    (function : List α → ℚ) (i : Nat) : List (String × ℚ) :=
  levels.map (fun lv =>
    (lv, function (((neighbors i).filterMap (fun j => obs.get? j)).map
      (fun r => r.label lv))))

/-- `calculate_local_diversity_metric`: map `calculate_function_locally`
over `range(len(obs))` (in order), then build a dataframe from the records
with `index=obs_ccf.index` and columns renamed `"local_{metric}_{level}"`.
The sklearn `kneighbors` query is abstracted as `neighbors : Nat → List Nat`
(it is external, floating-point code; no claim here depends on which
neighbor indices it returns). -/
def calculate_local_diversity_metric (obs : List (CellRow α))
    (function : List α → ℚ) (metric_name : String)
    (neighbors : Nat → List Nat) (levels : List String) :
    List (String × List (String × ℚ)) :=
  obs.enum.map (fun p =>
    (p.2.id,
      (calculate_function_locally obs neighbors levels function p.1).map
        (fun q => ("local_" ++ metric_name ++ "_" ++ q.1, q.2))))

/-! ### Palette fallback (barplot_stacked_proportions, diversity_plots.py) -/

/-- A color mapping (Python dict, insertion-ordered). -/
abbrev Palette : Type := List (String × String)

/-- Python `palette['other'] = 'lightgrey'`: replace in place, else append. -/
def setColor (p : Palette) (k v : String) : Palette :=
  if p.any (fun q => q.1 == k) then
    p.map (fun q => if q.1 == k then (k, v) else q)
  else p ++ [(k, v)]

/-- A Python palette value at the `palette['other']` assignment site:
either a color-mapping dict, or colorcet's `glasbey_light`, which is a
plain *list* of hex color strings, not a dict. -/
inductive PalValue : Type
  | dict (p : Palette)
  | colorList (cs : List String)

/-- Python `palette['other'] = 'lightgrey'`: on a dict it replaces in place
or appends; on a list, item assignment with a string key raises
`TypeError` (the `Except` error). -/
def setItem : PalValue → String → String → Except Unit PalValue
  | PalValue.dict p, k, c => Except.ok (PalValue.dict (setColor p k c))
  | PalValue.colorList _, _, _ => Except.error ()

/-- The computational content of `barplot_stacked_proportions` feeding the
renderer: resolve the palette — a supplied one, else the taxonomy palette
provider unless it raises its recognizable error (`ValueError`, modelled as
the `Except` error), in which case colorcet's `glasbey_light` color *list* —
then run the unconditional `palette['other'] = 'lightgrey'` assignment
(which raises `TypeError` on a list), and compute the stacked proportions
via `calculate_level_proportions`.  The matplotlib rendering of the
resulting pair is outside the model. -/
def barplot_stacked_proportions
    (get_taxonomy_palette : String → Except Unit Palette)
    (glasbey_light : List String) (obs : List (Row String))
    (taxonomy_level : String) (palette : Option Palette)
    (min_cell_frac : ℚ) (min_cell_count : Option Nat) :
    Except Unit (PalValue × List (String × List (Option String × ℚ))) :=
  let pal : PalValue :=
    match palette with
    | some p => PalValue.dict p
    | none =>
        match get_taxonomy_palette taxonomy_level with
        | Except.ok p => PalValue.dict p
        | Except.error _ => PalValue.colorList glasbey_light
  match setItem pal "other" "lightgrey" with
  | Except.error e => Except.error e
  | Except.ok pal' =>
      Except.ok (pal',
        calculate_level_proportions obs taxonomy_level min_cell_frac
          min_cell_count)

/-! ### Concrete inputs used by witnesses and counterexamples -/

/-- The spec's concrete proportion-aggregation scenario: one region with
category counts c1:5, c2:3, c3:2 (10 cells total). -/
def obs10 : List (Row String) :=
  List.replicate 5 (mkRow "r" "c1") ++ List.replicate 3 (mkRow "r" "c2") ++
  List.replicate 2 (mkRow "r" "c3")

/-- A sample with one category occurring exactly 6 times and one exactly 5. -/
def x11 : List String := List.replicate 6 "a" ++ List.replicate 5 "b"

end AbcMerfish

namespace AbcMerfish

/-! ## Shared lemmas -/

variable {α : Type} [DecidableEq α]

theorem value_counts_filter_pos (x : List α) :
    (value_counts x).filter (fun p => 0 < p.2) = value_counts x := by
  apply List.filter_eq_self.mpr
  intro p hp
  simp only [value_counts, List.mem_map] at hp
  obtain ⟨c, hc, rfl⟩ := hp
  simpa using List.count_pos_iff.mpr (List.mem_dedup.mp hc)

theorem simpsons_denom_eq (x : List α) :
    simpsons_denom x =
      (x.dedup.map (fun c => ((x.count c : ℚ) / (x.length : ℚ)) ^ 2)).sum := by
  rw [simpsons_denom, value_counts_filter_pos, value_counts, List.map_map]
  rfl

theorem sum_map_add_distrib {β γ : Type} [AddCommMonoid γ] (s : List β)
    (f g : β → γ) :
    (s.map (fun c => f c + g c)).sum = (s.map f).sum + (s.map g).sum := by
  induction s with
  | nil => simp
  | cons b t ih =>
      simp only [List.map_cons, List.sum_cons, ih]
      exact add_add_add_comm _ _ _ _

theorem sum_map_sub_distrib {β γ : Type} [AddCommGroup γ] (s : List β)
    (f g : β → γ) :
    (s.map (fun c => f c - g c)).sum = (s.map f).sum - (s.map g).sum := by
  induction s with
  | nil => simp
  | cons b t ih =>
      simp only [List.map_cons, List.sum_cons, ih]
      exact sub_add_sub_comm _ _ _ _

theorem sum_proportions_eq_one (x : List α) (hx : x ≠ []) :
    (x.dedup.map (fun c => (x.count c : ℚ) / (x.length : ℚ))).sum = 1 := by
  have hx0 : x.length ≠ 0 := fun h => hx (List.length_eq_zero.mp h)
  have hn : (x.length : ℚ) ≠ 0 := Nat.cast_ne_zero.mpr hx0
  have hsum : (x.dedup.map (fun c => (x.count c : ℚ))).sum = (x.length : ℚ) := by
    calc (x.dedup.map (fun c => (x.count c : ℚ))).sum
        = ((x.dedup.map (fun c => x.count c)).map (fun m : ℕ => (m : ℚ))).sum := by
          rw [List.map_map]; rfl
      _ = (((x.dedup.map (fun c => x.count c)).sum : ℕ) : ℚ) :=
          (Nat.cast_list_sum _).symm
      _ = (x.length : ℚ) := by rw [List.sum_map_count_dedup_eq_length]
  have hdiv : (x.dedup.map (fun c => (x.count c : ℚ) / (x.length : ℚ))).sum
      = (x.dedup.map (fun c => (x.count c : ℚ))).sum * ((x.length : ℚ))⁻¹ := by
    simp only [div_eq_mul_inv]
    exact List.sum_map_mul_right _ _ _
  rw [hdiv, hsum, mul_inv_cancel₀ hn]

/-! ## C1: inverse Simpson index range -/

/-- C1: for every non-empty categorical sample `x` (under exact rational
arithmetic on the category counts), `inverse_simpsons_index x ≥ 1`, and it
equals `1` iff every item of `x` belongs to one single category. -/
theorem inverse_simpsons_index_spec (x : List α) (hx : x ≠ []) :
    1 ≤ inverse_simpsons_index x ∧
      (inverse_simpsons_index x = 1 ↔ ∀ a ∈ x, ∀ b ∈ x, a = b) := by
  have hx0 : x.length ≠ 0 := fun h => hx (List.length_eq_zero.mp h)
  have hn : (0 : ℚ) < (x.length : ℚ) := by
    exact_mod_cast Nat.pos_of_ne_zero hx0
  set p : α → ℚ := fun c => (x.count c : ℚ) / (x.length : ℚ) with hp_def
  have hS_eq : simpsons_denom x = (x.dedup.map (fun c => p c ^ 2)).sum :=
    simpsons_denom_eq x
  have hPsum : (x.dedup.map p).sum = 1 := sum_proportions_eq_one x hx
  have hp_pos : ∀ c ∈ x.dedup, 0 < p c := by
    intro c hc
    have : 0 < x.count c := List.count_pos_iff.mpr (List.mem_dedup.mp hc)
    exact div_pos (by exact_mod_cast this) hn
  have hp_le_one : ∀ c ∈ x.dedup, p c ≤ 1 := by
    intro c hc
    have hnn : ∀ q ∈ x.dedup.map p, 0 ≤ q := by
      intro q hq
      obtain ⟨c', hc', rfl⟩ := List.mem_map.mp hq
      exact (hp_pos c' hc').le
    have h := List.single_le_sum hnn (p c) (List.mem_map.mpr ⟨c, hc, rfl⟩)
    rwa [hPsum] at h
  have hS_le : simpsons_denom x ≤ 1 := by
    rw [hS_eq, ← hPsum]
    apply List.sum_le_sum
    intro c hc
    have h1 := hp_pos c hc
    have h2 := hp_le_one c hc
    nlinarith
  have hdnn : x.dedup ≠ [] := by
    intro h
    exact hx ((List.dedup_eq_nil x).mp h)
  have hsq_nn : ∀ q ∈ x.dedup.map (fun c => p c ^ 2), 0 ≤ q := by
    intro q hq
    obtain ⟨c', _, rfl⟩ := List.mem_map.mp hq
    exact sq_nonneg _
  have hS_pos : 0 < simpsons_denom x := by
    rw [hS_eq]
    obtain ⟨c₀, hc₀⟩ := List.exists_mem_of_ne_nil x.dedup hdnn
    have hterm : 0 < p c₀ ^ 2 := pow_pos (hp_pos c₀ hc₀) 2
    have h := List.single_le_sum hsq_nn (p c₀ ^ 2)
      (List.mem_map.mpr ⟨c₀, hc₀, rfl⟩)
    exact lt_of_lt_of_le hterm h
  refine ⟨?_, ?_, ?_⟩
  · rw [inverse_simpsons_index, le_div_iff₀ hS_pos, one_mul]
    exact hS_le
  · intro h1
    have hS1 : simpsons_denom x = 1 := by
      have h := (div_eq_one_iff_eq hS_pos.ne').mp h1
      exact h.symm
    have hsum0 : (x.dedup.map (fun c => p c - p c ^ 2)).sum = 0 := by
      rw [sum_map_sub_distrib, hPsum, ← hS_eq, hS1, sub_self]
    have hzero : ∀ c ∈ x.dedup, p c - p c ^ 2 = 0 := by
      intro c hc
      have hnn : ∀ q ∈ x.dedup.map (fun c => p c - p c ^ 2), 0 ≤ q := by
        intro q hq
        obtain ⟨c', hc', rfl⟩ := List.mem_map.mp hq
        have h1' := hp_pos c' hc'
        have h2' := hp_le_one c' hc'
        nlinarith
      exact List.all_zero_of_le_zero_le_of_sum_eq_zero hnn hsum0
        (List.mem_map.mpr ⟨c, hc, rfl⟩)
    obtain ⟨c₀, hc₀⟩ := List.exists_mem_of_ne_nil x.dedup hdnn
    have hfac : p c₀ * (1 - p c₀) = 0 := by
      have h := hzero c₀ hc₀
      ring_nf
      ring_nf at h
      linarith
    have hp1 : p c₀ = 1 := by
      rcases mul_eq_zero.mp hfac with h | h
      · exact absurd h (hp_pos c₀ hc₀).ne'
      · linarith
    have hcount : x.count c₀ = x.length := by
      have h : (x.count c₀ : ℚ) = (x.length : ℚ) := by
        have := (div_eq_one_iff_eq hn.ne').mp hp1
        exact this
      exact_mod_cast h
    have hall : ∀ b ∈ x, c₀ = b := List.count_eq_length.mp hcount
    intro a ha b hb
    exact (hall a ha).symm.trans (hall b hb)
  · intro h
    have hc_all : ∀ c ∈ x.dedup, p c = 1 := by
      intro c hc
      have hcx := List.mem_dedup.mp hc
      have hcnt : x.count c = x.length :=
        List.count_eq_length.mpr (fun b hb => h c hcx b hb)
      rw [hp_def]
      simp only []
      rw [hcnt]
      exact div_self hn.ne'
    have hmapeq : x.dedup.map (fun c => p c ^ 2) = x.dedup.map p := by
      apply List.map_congr_left
      intro c hc
      rw [hc_all c hc]
      norm_num
    rw [inverse_simpsons_index, hS_eq, hmapeq, hPsum]
    norm_num

/-- C1 witness: the theorem applied at concrete samples. -/
theorem inverse_simpsons_index_spec_witness :
    1 ≤ inverse_simpsons_index ["a", "a", "b"] ∧
      inverse_simpsons_index ["a", "a"] = 1 :=
  ⟨(inverse_simpsons_index_spec ["a", "a", "b"] (by decide)).1,
   (inverse_simpsons_index_spec ["a", "a"] (by decide)).2.mpr (by decide)⟩

/-! ## C4: the min_frac=0.5 scenario (threshold is inclusive) -/

/-- C4 counterexample: on the spec's scenario (counts c1:5, c2:3, c3:2,
`min_frac = 1/2`), the thresholding test `fraction <= min_frac` is
*inclusive*, so c1 (fraction exactly 1/2) is also collapsed: the output row
is a single `other` column (`none`) at proportion 1, and no column holds c1
at proportion 1/2 as the claim asserts. -/
theorem level_proportions_half_counterexample :
    calculate_level_proportions obs10 "cluster" (1/2 : ℚ) none =
        [("r", [(none, 1)])] ∧
      ∀ row ∈ calculate_level_proportions obs10 "cluster" (1/2 : ℚ) none,
        (some "c1", (1/2 : ℚ)) ∉ row.2 := by
  constructor
  · with_unfolding_all decide
  · with_unfolding_all decide

/-- C4 amended: with any threshold that keeps c1 strictly above it — here
`min_frac = 3/10` — c2 (fraction 3/10 ≤ threshold) and c3 (fraction 2/10)
collapse into `other` (`none`) at proportion 1/2, leaving c1 at 1/2. -/
theorem level_proportions_amended :
    calculate_level_proportions obs10 "cluster" (3/10 : ℚ) none =
      [("r", [(some "c1", 1/2), (none, 1/2)])] := by
  with_unfolding_all decide

/-! ## C5: count_gt5 threshold semantics -/

/-- C5: for every non-empty sample, `count_gt5` is the number of distinct
categories whose occurrence count is strictly greater than 5; a category
with count exactly 5 is not in the counted set, one with count exactly 6
is. -/
theorem count_gt5_spec (x : List α) (hx : x ≠ []) :
    count_gt5 x = (x.toFinset.filter (fun c => 5 < x.count c)).card ∧
      (∀ c, x.count c = 5 →
        c ∉ x.toFinset.filter (fun c => 5 < x.count c)) ∧
      (∀ c, x.count c = 6 →
        c ∈ x.toFinset.filter (fun c => 5 < x.count c)) := by
  refine ⟨?_, ?_, ?_⟩
  · have h1 : count_gt5 x =
        (x.dedup.filter (fun c => 5 < x.count c)).length := by
      rw [count_gt5, value_counts]
      rw [← List.countP_eq_length_filter, List.countP_map,
        ← List.countP_eq_length_filter]
      rfl
    have h2 : (x.dedup.filter (fun c => 5 < x.count c)).toFinset =
        x.toFinset.filter (fun c => 5 < x.count c) := by
      ext a
      simp [List.mem_filter, List.mem_dedup]
    have h3 : (x.dedup.filter (fun c => 5 < x.count c)).Nodup :=
      (List.nodup_dedup x).filter _
    rw [h1, ← List.toFinset_card_of_nodup h3, h2]
  · intro c hc hmem
    rw [Finset.mem_filter] at hmem
    omega
  · intro c hc
    rw [Finset.mem_filter]
    refine ⟨List.mem_toFinset.mpr (List.count_pos_iff.mp (by omega)), by omega⟩

/-- C5 witness: the theorem applied at a sample with one category occurring
exactly 6 times (counted) and one exactly 5 times (not counted). -/
theorem count_gt5_spec_witness :
    count_gt5 x11 = (x11.toFinset.filter (fun c => 5 < x11.count c)).card ∧
      "b" ∉ x11.toFinset.filter (fun c => 5 < x11.count c) ∧
      "a" ∈ x11.toFinset.filter (fun c => 5 < x11.count c) :=
  ⟨(count_gt5_spec x11 (by decide)).1,
   (count_gt5_spec x11 (by decide)).2.1 "b" (by decide),
   (count_gt5_spec x11 (by decide)).2.2 "a" (by decide)⟩

/-! ## C8: behavior of the statistic formulas on an empty sample -/

/-- C8 counterexample: applying the formulas to an empty sample is *not* an
error for most of them — `count_unique` returns 0, `count_gt5` returns 0 and
`shannon_index` returns 0 (for any log2), all ordinary scalar values. -/
theorem empty_sample_no_failure :
    count_unique ([] : List String) = 0 ∧
      count_gt5 ([] : List String) = 0 ∧
      shannon_index (fun q => q) ([] : List String) = 0 := by
  refine ⟨rfl, rfl, ?_⟩
  with_unfolding_all decide

/-- C8 amended: on an empty sample, only `count_unique_norm` fails
(division by the zero sample size); `count_unique` and `count_gt5` return 0,
`shannon_index` returns 0, and `inverse_simpsons_index` divides by a zero
denominator (numpy yields a non-finite `inf` rather than raising). -/
theorem empty_sample_behavior :
    count_unique_norm ([] : List String) = none ∧
      count_unique ([] : List String) = 0 ∧
      count_gt5 ([] : List String) = 0 ∧
      simpsons_denom ([] : List String) = 0 ∧
      shannon_index (fun q => q) ([] : List String) = 0 := by
  refine ⟨rfl, rfl, rfl, rfl, ?_⟩
  with_unfolding_all decide

/-! ## C2: the row index of get_region_metric -/

/-- C2: the row index of `get_region_metric` is deduplicated, and a region
label `g` is a row of the output iff `g` appears in the observation table's
region column and is not in the exclusion list (so every excluded label is
absent). -/
theorem get_region_metric_index (obs : List (Row α)) (f : List α → ℚ)
    (m : String) (exclude : List String) (nf : Option (List α → ℚ))
    (levels : List String) :
    ((get_region_metric obs f m exclude nf levels).map Prod.fst).Nodup ∧
      ∀ g, g ∈ (get_region_metric obs f m exclude nf levels).map Prod.fst ↔
        ((∃ r ∈ obs, r.region = g) ∧ g ∉ exclude) := by
  have hidx : (get_region_metric obs f m exclude nf levels).map Prod.fst
      = regionIndex obs exclude := by
    rw [get_region_metric, List.map_map]
    exact List.map_id _
  constructor
  · rw [hidx]
    exact List.nodup_dedup _
  · intro g
    rw [hidx]
    simp only [regionIndex, filterExcluded, List.mem_dedup, List.mem_map,
      List.mem_filter, Bool.not_eq_eq_eq_not, Bool.not_true]
    constructor
    · rintro ⟨r, ⟨hr, hc⟩, rfl⟩
      refine ⟨⟨r, hr, rfl⟩, fun hmem => ?_⟩
      have hct : exclude.contains r.region = true := List.elem_iff.mpr hmem
      cases hct.symm.trans hc
    · rintro ⟨⟨r, hr, rfl⟩, hg⟩
      refine ⟨r, ⟨hr, ?_⟩, rfl⟩
      cases hcb : exclude.contains r.region with
      | false => rfl
      | true => exact absurd (List.elem_iff.mp hcb) hg

/-! ## C6: normalization divides by the unfiltered whole column -/

theorem string_append_cancel_left {s t u : String} (h : s ++ t = s ++ u) :
    t = u := by
  apply String.ext
  have hd : s.data ++ t.data = s.data ++ u.data := by
    rw [← String.data_append, ← String.data_append, h]
  exact List.append_cancel_left hd

theorem lookup_map_key {β : Type} (l : List String) (key : String → String)
    (val : String → β) (a : String) (ha : a ∈ l)
    (hinj : ∀ b ∈ l, key b = key a → b = a) :
    (l.map (fun b => (key b, val b))).lookup (key a) = some (val a) := by
  induction l with
  | nil => cases ha
  | cons b t ih =>
      rw [List.map_cons, List.lookup_cons]
      by_cases hb : key b = key a
      · have hba : b = a := hinj b (List.mem_cons_self b t) hb
        subst hba
        simp
      · have hne : (key a == key b) = false :=
          beq_eq_false_iff_ne.mpr (fun h => hb h.symm)
        rw [hne]
        have ha' : a ∈ t := by
          rcases List.mem_cons.mp ha with h | h
          · exact absurd (by rw [h]) hb
          · exact h
        exact ih ha' (fun b' hb' hk => hinj b' (List.mem_cons_of_mem b hb') hk)

/-- C6: when a normalization function `nf` is supplied, the value of
`get_region_metric` at region `g` and column `"{m}_{lv}"` is the raw
per-region statistic divided by `nf` applied to the *entire unfiltered*
level column of the observation table — the rows whose region label is
excluded are still part of the normalization sample. -/
theorem get_region_metric_norm_unfiltered (obs : List (Row α))
    (f : List α → ℚ) (m : String) (exclude : List String)
    (nf : List α → ℚ) (levels : List String) (g lv : String)
    (hg : g ∈ regionIndex obs exclude) (hlv : lv ∈ levels) :
    tableLookup (get_region_metric obs f m exclude (some nf) levels) g
        (m ++ "_" ++ lv)
      = some (f (regionColumn obs exclude g lv) /
          nf (obs.map (fun r => r.label lv))) := by
  have houter := lookup_map_key (regionIndex obs exclude) (fun b => b)
    (fun g' => levels.map (fun lv' =>
      (m ++ "_" ++ lv',
        f (regionColumn obs exclude g' lv') /
          nf (obs.map (fun r => r.label lv'))))) g hg (fun _ _ h => h)
  have hinner := lookup_map_key levels (fun lv' => m ++ "_" ++ lv')
    (fun lv' => f (regionColumn obs exclude g lv') /
      nf (obs.map (fun r => r.label lv'))) lv hlv
    (fun _ _ h => string_append_cancel_left h)
  simp only [tableLookup, get_region_metric]
  rw [houter]
  simpa using hinner

/-- C6 witness: a concrete table where the category `c2` occurs only in an
excluded region, yet still enlarges the normalization denominator — the
`frac_cluster` value for region A is 1/2, not 1/1. -/
theorem get_region_metric_norm_unfiltered_witness :
    tableLookup (get_region_metric [mkRow "A" "c1", mkRow "X" ("c2" : String)]
        (fun x => (count_unique x : ℚ)) "frac" ["X"]
        (some (fun x => (count_unique x : ℚ))) defaultLevels) "A"
        "frac_cluster"
      = some ((count_unique ["c1"] : ℚ) / (count_unique ["c1", "c2"] : ℚ)) := by
  have h := get_region_metric_norm_unfiltered
    [mkRow "A" "c1", mkRow "X" ("c2" : String)]
    (fun x => (count_unique x : ℚ)) "frac" ["X"]
    (fun x => (count_unique x : ℚ)) defaultLevels "A" "cluster"
    (by decide) (by decide)
  exact h

/-! ## C7: the local metric table preserves the input row order -/

theorem enumFrom_map_snd_comp {β γ : Type} (g : β → γ) :
    ∀ (l : List β) (n : Nat),
      ((l.enumFrom n).map (fun p => g p.2)) = l.map g := by
  intro l
  induction l with
  | nil => intro n; rfl
  | cons b t ih =>
      intro n
      rw [List.enumFrom_cons, List.map_cons, List.map_cons, ih]

/-- C7: for every observation table (the three coordinate columns are part
of every `CellRow`) and any neighbor assignment, the table returned by
`calculate_local_diversity_metric` has exactly one row per input row, and
its row index is the input table's index in the same order. -/
theorem calculate_local_metric_index (obs : List (CellRow α))
    (f : List α → ℚ) (m : String) (neighbors : Nat → List Nat)
    (levels : List String) :
    (calculate_local_diversity_metric obs f m neighbors levels).map Prod.fst
        = obs.map CellRow.id ∧
      (calculate_local_diversity_metric obs f m neighbors levels).length
        = obs.length := by
  constructor
  · rw [calculate_local_diversity_metric, List.map_map]
    exact enumFrom_map_snd_comp CellRow.id obs 0
  · rw [calculate_local_diversity_metric, List.length_map]
    exact List.enumFrom_length

/-! ## C3: proportion rows sum to 1 -/

theorem sum_map_ite_one {s : List α} (hnd : s.Nodup) {a : α} (ha : a ∈ s) :
    (s.map (fun c => if a == c then (1 : ℕ) else 0)).sum = 1 := by
  induction s with
  | nil => cases ha
  | cons b t ih =>
      rcases List.nodup_cons.mp hnd with ⟨hb, ht⟩
      rw [List.map_cons, List.sum_cons]
      rcases List.mem_cons.mp ha with h | h
      · have h1 : (if a == b then (1 : ℕ) else 0) = 1 := by simp [h]
        have h2 : (t.map (fun c => if a == c then (1 : ℕ) else 0)).sum = 0 := by
          apply List.sum_eq_zero
          intro y hy
          obtain ⟨c, hc, rfl⟩ := List.mem_map.mp hy
          have hne : a ≠ c := by
            rintro rfl
            exact hb (h ▸ hc)
          simp [hne]
        rw [h1, h2]
      · have hab : a ≠ b := by
          rintro rfl
          exact hb h
        have h1 : (if a == b then (1 : ℕ) else 0) = 0 := by simp [hab]
        rw [h1, ih ht h]

theorem sum_map_count_eq_length {s : List α} (hnd : s.Nodup) :
    ∀ l : List α, (∀ a ∈ l, a ∈ s) →
      (s.map (fun c => l.count c)).sum = l.length := by
  intro l
  induction l with
  | nil => intro _; simp
  | cons a t ih =>
      intro hsub
      have hmem : a ∈ s := hsub a (List.mem_cons_self a t)
      have hsub' : ∀ b ∈ t, b ∈ s := fun b hb =>
        hsub b (List.mem_cons_of_mem a hb)
      have hfun : (fun c => (a :: t).count c) =
          (fun c => t.count c + if a == c then (1 : ℕ) else 0) := by
        funext c
        rw [List.count_cons]
      rw [hfun, sum_map_add_distrib, ih hsub', sum_map_ite_one hnd hmem,
        List.length_cons]

/-- Consolidating below-threshold cells into `other` preserves each region's
total count. -/
theorem newCount_add_otherCount (obs : List (Row α)) (lv : String)
    (min_frac : ℚ) (min_count : Option Nat) (g : String) :
    ((lvCats obs lv).map
        (fun c => newCount obs lv min_frac min_count g c)).sum +
      otherCount obs lv min_frac min_count g = regionSize obs g := by
  rw [otherCount, ← sum_map_add_distrib]
  have hsplit : (fun c => newCount obs lv min_frac min_count g c +
      if toOther obs lv min_frac min_count g c then cellCount obs lv g c
      else 0) = fun c => cellCount obs lv g c := by
    funext c
    rw [newCount]
    by_cases h : toOther obs lv min_frac min_count g c <;> simp [h]
  rw [hsplit]
  have hlen : regionSize obs g =
      ((obs.filter (fun r => r.region == g)).map (fun r => r.label lv)).length := by
    rw [regionSize, List.length_map]
  rw [hlen]
  apply sum_map_count_eq_length (List.nodup_dedup _)
  intro a ha
  obtain ⟨r, hr, rfl⟩ := List.mem_map.mp ha
  exact List.mem_dedup.mpr
    (List.mem_map.mpr ⟨r, List.mem_of_mem_filter hr, rfl⟩)

theorem sum_filter_map_eq_of_zero {s : List α} (p : α → Bool) (f : α → ℚ)
    (h0 : ∀ c ∈ s, p c = false → f c = 0) :
    ((s.filter p).map f).sum = (s.map f).sum := by
  induction s with
  | nil => rfl
  | cons b t ih =>
      have ih' := ih (fun c hc h => h0 c (List.mem_cons_of_mem b hc) h)
      rw [List.filter_cons]
      by_cases hb : p b
      · rw [if_pos hb, List.map_cons, List.sum_cons, List.map_cons,
          List.sum_cons, ih']
      · have hfb : f b = 0 := h0 b (List.mem_cons_self b t)
          (Bool.eq_false_iff.mpr hb)
      
        rw [if_neg hb, ih', List.map_cons, List.sum_cons, hfb, zero_add]

theorem regionSize_pos (obs : List (Row α)) (g : String)
    (hg : g ∈ lvRegions obs) : 0 < regionSize obs g := by
  rw [lvRegions, List.mem_dedup, List.mem_map] at hg
  obtain ⟨r, hr, rfl⟩ := hg
  rw [regionSize]
  have hmem : r ∈ obs.filter (fun x => x.region == r.region) :=
    List.mem_filter.mpr ⟨hr, by simp⟩
  exact List.length_pos.mpr (List.ne_nil_of_mem hmem)

/-- The row total the proportions are divided by is the region's cell
count: consolidation moves counts but never changes the total, and dropped
columns are zero everywhere, in particular in row `g`. -/
theorem rowDenom_eq_regionSize (obs : List (Row α)) (lv : String)
    (min_frac : ℚ) (min_count : Option Nat) (g : String)
    (hg : g ∈ lvRegions obs) :
    rowDenom obs lv min_frac min_count g = (regionSize obs g : ℚ) := by
  have hkept : ((keptCats obs lv min_frac min_count).map
      (fun c => (newCount obs lv min_frac min_count g c : ℚ))).sum
      = ((lvCats obs lv).map
        (fun c => (newCount obs lv min_frac min_count g c : ℚ))).sum := by
    apply sum_filter_map_eq_of_zero
    intro c _ hp
    have hall := List.any_eq_false.mp hp
    have h0 := hall g hg
    simp only [bne_iff_ne, ne_eq, not_not] at h0
    exact_mod_cast congrArg (Nat.cast : ℕ → ℚ) h0
  have hcast : ((lvCats obs lv).map
      (fun c => (newCount obs lv min_frac min_count g c : ℚ))).sum
      = ((((lvCats obs lv).map
        (fun c => newCount obs lv min_frac min_count g c)).sum : ℕ) : ℚ) := by
    rw [Nat.cast_list_sum, List.map_map]
    rfl
  have hnat := newCount_add_otherCount obs lv min_frac min_count g
  cases hok : otherKept obs lv min_frac min_count with
  | true =>
      rw [rowDenom, hok, if_pos rfl, hkept, hcast]
      rw [← Nat.cast_add]
      exact_mod_cast congrArg (Nat.cast : ℕ → ℚ) hnat
  | false =>
      have hother : otherCount obs lv min_frac min_count g = 0 := by
        have hall := List.any_eq_false.mp hok
        have h0 := hall g hg
        simpa using h0
      rw [rowDenom, hok]
      simp only [Bool.false_eq_true, if_false, add_zero]
      rw [hkept, hcast]
      rw [hother, Nat.add_zero] at hnat
      exact_mod_cast congrArg (Nat.cast : ℕ → ℚ) hnat

/-- C3: every region row of `calculate_level_proportions` sums to exactly 1
(under exact rational arithmetic), in both thresholding modes
(`min_count = some m` and the `min_frac` mode `min_count = none`); region
groups are non-empty by construction since the row index is the set of
region labels that actually occur. -/
theorem calculate_level_proportions_rows_sum_one (obs : List (Row α))
    (lv : String) (min_frac : ℚ) (min_count : Option Nat) (g : String)
    (row : List (Option α × ℚ))
    (hrow : (g, row) ∈ calculate_level_proportions obs lv min_frac min_count) :
    (row.map Prod.snd).sum = 1 := by
  rw [calculate_level_proportions] at hrow
  obtain ⟨g', hg', heq⟩ := List.mem_map.mp hrow
  rw [Prod.mk.injEq] at heq
  obtain ⟨rfl, hroweq⟩ := heq
  subst hroweq
  have hD := rowDenom_eq_regionSize obs lv min_frac min_count g' hg'
  have hpos : (0 : ℚ) < (regionSize obs g' : ℚ) := by
    exact_mod_cast regionSize_pos obs g' hg'
  have hDne : rowDenom obs lv min_frac min_count g' ≠ 0 := by
    rw [hD]
    exact hpos.ne'
  rw [List.map_append, List.sum_append, List.map_map]
  have h1 : ((keptCats obs lv min_frac min_count).map
      (Prod.snd ∘ fun c => ((some c : Option α),
        (newCount obs lv min_frac min_count g' c : ℚ) /
          rowDenom obs lv min_frac min_count g'))).sum
      = ((keptCats obs lv min_frac min_count).map
          (fun c => (newCount obs lv min_frac min_count g' c : ℚ))).sum *
        (rowDenom obs lv min_frac min_count g')⁻¹ := by
    have hfn : (Prod.snd ∘ fun c => ((some c : Option α),
        (newCount obs lv min_frac min_count g' c : ℚ) /
          rowDenom obs lv min_frac min_count g'))
        = fun c => (newCount obs lv min_frac min_count g' c : ℚ) *
            (rowDenom obs lv min_frac min_count g')⁻¹ := by
      funext c
      simp [div_eq_mul_inv]
    rw [hfn, List.sum_map_mul_right]
  rw [h1]
  cases hok : otherKept obs lv min_frac min_count with
  | true =>
      rw [if_pos rfl]
      simp only [List.map_cons, List.map_nil, List.sum_cons, List.sum_nil,
        add_zero]
      rw [div_eq_mul_inv, ← add_mul]
      have hsum : ((keptCats obs lv min_frac min_count).map
          (fun c => (newCount obs lv min_frac min_count g' c : ℚ))).sum +
          (otherCount obs lv min_frac min_count g' : ℚ)
          = rowDenom obs lv min_frac min_count g' := by
        rw [rowDenom, hok, if_pos rfl]
      rw [hsum, mul_inv_cancel₀ hDne]
  | false =>
      simp only [Bool.false_eq_true, if_false, List.map_nil, List.sum_nil,
        add_zero]
      have hsum : ((keptCats obs lv min_frac min_count).map
          (fun c => (newCount obs lv min_frac min_count g' c : ℚ))).sum
          = rowDenom obs lv min_frac min_count g' := by
        rw [rowDenom, hok]
        simp only [Bool.false_eq_true, if_false, add_zero]
      rw [hsum, mul_inv_cancel₀ hDne]

/-- C3 witness: the theorem applied at a one-region, one-category table. -/
theorem calculate_level_proportions_rows_sum_one_witness :
    (([((some "a" : Option String), (1 : ℚ))]).map Prod.snd).sum = 1 :=
  calculate_level_proportions_rows_sum_one [mkRow "r" "a"] "cluster" 0 none
    "r" [(some "a", 1)] (by with_unfolding_all decide)

/-! ## C9: palette fallback in barplot_stacked_proportions -/

/-- C9 (code bug): when no palette is supplied and the taxonomy palette
provider raises its recognizable error, the caught branch substitutes
colorcet's `glasbey_light` — a plain list of colors, not a dict — and the
unconditional `palette['other'] = 'lightgrey'` then raises `TypeError`, so
the call fails instead of proceeding to render with the fallback palette;
a run with a supplied palette does proceed normally. -/
theorem barplot_palette_fallback_crashes
    (get_taxonomy_palette : String → Except Unit Palette)
    (glasbey_light : List String) (obs : List (Row String))
    (taxonomy_level : String) (min_cell_frac : ℚ)
    (min_cell_count : Option Nat) (e : Unit)
    (herr : get_taxonomy_palette taxonomy_level = Except.error e) :
    barplot_stacked_proportions get_taxonomy_palette glasbey_light obs
        taxonomy_level none min_cell_frac min_cell_count
      = Except.error () ∧
    ∀ p : Palette,
      barplot_stacked_proportions get_taxonomy_palette glasbey_light obs
          taxonomy_level (some p) min_cell_frac min_cell_count
        = Except.ok (PalValue.dict (setColor p "other" "lightgrey"),
            calculate_level_proportions obs taxonomy_level min_cell_frac
              min_cell_count) := by
  constructor
  · simp only [barplot_stacked_proportions, herr, setItem]
  · intro p
    simp only [barplot_stacked_proportions, setItem]

/-- C9 witness: the theorem applied with an always-raising provider — the
fallback run errors, the palette-supplied run succeeds. -/
theorem barplot_palette_fallback_crashes_witness :
    barplot_stacked_proportions (fun _ => Except.error ()) ["#d60000"]
        [mkRow "r" "a"] "cluster" none 0 none
      = Except.error () ∧
    barplot_stacked_proportions (fun _ => Except.error ()) ["#d60000"]
        [mkRow "r" "a"] "cluster" (some [("a", "red")]) 0 none
      = Except.ok (PalValue.dict (setColor [("a", "red")] "other" "lightgrey"),
          calculate_level_proportions [mkRow "r" "a"] "cluster" 0 none) :=
  ⟨(barplot_palette_fallback_crashes (fun _ => Except.error ()) ["#d60000"]
      [mkRow "r" "a"] "cluster" 0 none () rfl).1,
   (barplot_palette_fallback_crashes (fun _ => Except.error ()) ["#d60000"]
      [mkRow "r" "a"] "cluster" 0 none () rfl).2 [("a", "red")]⟩

/-! ## C10: frac and frac_gt5 columns are at most 1 -/

theorem count_unique_sublist_le {l₁ l₂ : List α} (h : List.Sublist l₁ l₂) :
    count_unique l₁ ≤ count_unique l₂ := by
  rw [count_unique, count_unique, ← List.card_toFinset, ← List.card_toFinset]
  exact Finset.card_le_card (fun a ha =>
    List.mem_toFinset.mpr (h.subset (List.mem_toFinset.mp ha)))

theorem count_gt5_le_count_unique (x : List α) :
    count_gt5 x ≤ count_unique x := by
  rw [count_gt5, count_unique, value_counts]
  calc ((x.dedup.map (fun c => (c, x.count c))).filter
          (fun p => 5 < p.2)).length
      ≤ (x.dedup.map (fun c => (c, x.count c))).length :=
        List.length_filter_le _ _
    _ = x.dedup.length := List.length_map _ _

/-- The region sample is a sub-multiset of the whole unfiltered column. -/
theorem regionColumn_sublist (obs : List (Row α)) (exclude : List String)
    (g lv : String) :
    List.Sublist (regionColumn obs exclude g lv)
      (obs.map (fun r => r.label lv)) := by
  rw [regionColumn, filterExcluded]
  exact List.Sublist.map _
    ((List.filter_sublist _).trans (List.filter_sublist _))

/-- Any per-region count bounded by the region's distinct-category count,
divided by the distinct-category count of the whole column, is at most 1. -/
theorem frac_value_le_one (obs : List (Row α)) (exclude : List String)
    (g lv : String) (hg : g ∈ regionIndex obs exclude) (num : ℕ)
    (hnum : num ≤ count_unique (regionColumn obs exclude g lv)) :
    (num : ℚ) / (count_unique (obs.map (fun r => r.label lv)) : ℚ) ≤ 1 := by
  have hsub : count_unique (regionColumn obs exclude g lv)
      ≤ count_unique (obs.map (fun r => r.label lv)) :=
    count_unique_sublist_le (regionColumn_sublist obs exclude g lv)
  have hpos : 0 < count_unique (obs.map (fun r => r.label lv)) := by
    rw [regionIndex, List.mem_dedup, List.mem_map] at hg
    obtain ⟨r, hr, rfl⟩ := hg
    have hobs : r ∈ obs := List.mem_of_mem_filter hr
    have hmem : r.label lv ∈ (obs.map (fun r => r.label lv)).dedup :=
      List.mem_dedup.mpr (List.mem_map.mpr ⟨r, hobs, rfl⟩)
    exact List.length_pos.mpr (List.ne_nil_of_mem hmem)
  have hposq : (0 : ℚ) < (count_unique (obs.map (fun r => r.label lv)) : ℚ) := by
    exact_mod_cast hpos
  rw [div_le_one hposq]
  exact_mod_cast le_trans hnum hsub

theorem mem_concatCols {t₁ t₂ : List (String × List (String × ℚ))}
    {g : String} {cols : List (String × ℚ)}
    (h : (g, cols) ∈ concatCols t₁ t₂) :
    ∃ cols₁, (g, cols₁) ∈ t₁ ∧ cols = cols₁ ++ ((t₂.lookup g).getD []) := by
  rw [concatCols] at h
  obtain ⟨r, hr, heq⟩ := List.mem_map.mp h
  obtain ⟨rg, rcols⟩ := r
  rw [Prod.mk.injEq] at heq
  obtain ⟨h1, h2⟩ := heq
  subst h1
  exact ⟨rcols, hr, h2.symm⟩

theorem pair_mem_lookup_getD {t : List (String × List (String × ℚ))}
    {g : String} {pr : String × ℚ} (h : pr ∈ (t.lookup g).getD []) :
    ∃ cols₂, (g, cols₂) ∈ t ∧ pr ∈ cols₂ := by
  cases hl : t.lookup g with
  | none => rw [hl] at h; cases h
  | some cols₂ =>
      rw [hl] at h
      obtain ⟨l₁, l₂, heq, _⟩ := List.lookup_eq_some_iff.mp hl
      refine ⟨cols₂, ?_, h⟩
      rw [heq]
      exact List.mem_append.mpr (Or.inr (List.mem_cons_self _ _))

theorem row_of_mem_get_region_metric_none {obs : List (Row α)}
    {f : List α → ℚ} {m : String} {exclude : List String}
    {levels : List String} {g : String} {cols : List (String × ℚ)}
    (h : (g, cols) ∈ get_region_metric obs f m exclude none levels) :
    g ∈ regionIndex obs exclude ∧
      cols = levels.map (fun lv' =>
        (m ++ "_" ++ lv', f (regionColumn obs exclude g lv'))) := by
  rw [get_region_metric] at h
  obtain ⟨g', hg', heq⟩ := List.mem_map.mp h
  rw [Prod.mk.injEq] at heq
  obtain ⟨h1, h2⟩ := heq
  subst h1
  exact ⟨hg', h2.symm⟩

theorem row_of_mem_get_region_metric_some {obs : List (Row α)}
    {f : List α → ℚ} {m : String} {exclude : List String}
    {nf : List α → ℚ} {levels : List String} {g : String}
    {cols : List (String × ℚ)}
    (h : (g, cols) ∈ get_region_metric obs f m exclude (some nf) levels) :
    g ∈ regionIndex obs exclude ∧
      cols = levels.map (fun lv' =>
        (m ++ "_" ++ lv',
          f (regionColumn obs exclude g lv') /
            nf (obs.map (fun r => r.label lv')))) := by
  rw [get_region_metric] at h
  obtain ⟨g', hg', heq⟩ := List.mem_map.mp h
  rw [Prod.mk.injEq] at heq
  obtain ⟨h1, h2⟩ := heq
  subst h1
  exact ⟨hg', h2.symm⟩

theorem pair_mem_level_columns {m : String} {F : String → ℚ}
    {levels : List String} {name : String} {v : ℚ}
    (h : (name, v) ∈ levels.map (fun lv' => (m ++ "_" ++ lv', F lv'))) :
    ∃ lv' ∈ levels, name = m ++ "_" ++ lv' ∧ v = F lv' := by
  obtain ⟨lv', hlv', heq⟩ := List.mem_map.mp h
  rw [Prod.mk.injEq] at heq
  exact ⟨lv', hlv', heq.1.symm, heq.2.symm⟩

/-- C10: `count_unique` is monotone under sub-multisets, so every value in
the `frac_{level}` and `frac_gt5_{level}` columns of
`calculate_diversity_metrics` (the metrics normalized by
`norm_fcn=count_unique` of the whole column) is at most 1. -/
theorem calculate_diversity_metrics_frac_le_one (log2 : ℚ → ℚ)
    (obs : List (Row α)) (g : String) (cols : List (String × ℚ))
    (lv : String) (v : ℚ)
    (hrow : (g, cols) ∈ calculate_diversity_metrics log2 obs)
    (hlv : lv ∈ defaultLevels)
    (hcol : ("frac_" ++ lv, v) ∈ cols ∨ ("frac_gt5_" ++ lv, v) ∈ cols) :
    v ≤ 1 := by
  obtain ⟨nm, hnm, hpair⟩ : ∃ nm,
      (nm = "frac_" ++ lv ∨ nm = "frac_gt5_" ++ lv) ∧ (nm, v) ∈ cols := by
    rcases hcol with h | h
    · exact ⟨_, Or.inl rfl, h⟩
    · exact ⟨_, Or.inr rfl, h⟩
  simp only [defaultLevels, List.mem_cons, List.not_mem_nil, or_false] at hlv
  simp only [calculate_diversity_metrics] at hrow
  obtain ⟨r, hr, heq⟩ := List.mem_map.mp hrow
  obtain ⟨rg, rcols⟩ := r
  rw [Prod.mk.injEq] at heq
  obtain ⟨h1, h2⟩ := heq
  subst h1
  subst h2
  obtain ⟨c6, hm6, he6⟩ := mem_concatCols hr
  obtain ⟨c5, hm5, he5⟩ := mem_concatCols hm6
  obtain ⟨c4, hm4, he4⟩ := mem_concatCols hm5
  obtain ⟨c3, hm3, he3⟩ := mem_concatCols hm4
  obtain ⟨c2, hm2, he2⟩ := mem_concatCols hm3
  obtain ⟨c1, hm1, he1⟩ := mem_concatCols hm2
  subst he6
  subst he5
  subst he4
  subst he3
  subst he2
  subst he1
  simp only [List.mem_append] at hpair
  rcases hpair with (((((((h | h) | h) | h) | h) | h) | h) | h)
  · obtain ⟨_, hcols⟩ := row_of_mem_get_region_metric_none hm1
    subst hcols
    obtain ⟨lv', hlv', hname, _⟩ := pair_mem_level_columns h
    simp only [defaultLevels, List.mem_cons, List.not_mem_nil, or_false]
      at hlv'
    rcases hnm with rfl | rfl <;> rcases hlv with rfl | rfl | rfl <;>
      rcases hlv' with rfl | rfl | rfl <;> exact absurd hname (by decide)
  · obtain ⟨cols₂, hmem₂, hpr⟩ := pair_mem_lookup_getD h
    obtain ⟨hg, hcols⟩ := row_of_mem_get_region_metric_some hmem₂
    subst hcols
    obtain ⟨lv', hlv', hname, hval⟩ := pair_mem_level_columns hpr
    simp only [defaultLevels, List.mem_cons, List.not_mem_nil, or_false]
      at hlv'
    rcases hnm with rfl | rfl <;> rcases hlv with rfl | rfl | rfl <;>
      rcases hlv' with rfl | rfl | rfl <;>
      first
        | exact absurd hname (by decide)
        | (subst hval
           exact frac_value_le_one obs defaultExclude rg _ hg _ (le_refl _))
  · obtain ⟨cols₂, hmem₂, hpr⟩ := pair_mem_lookup_getD h
    obtain ⟨_, hcols⟩ := row_of_mem_get_region_metric_none hmem₂
    subst hcols
    obtain ⟨lv', hlv', hname, _⟩ := pair_mem_level_columns hpr
    simp only [defaultLevels, List.mem_cons, List.not_mem_nil, or_false]
      at hlv'
    rcases hnm with rfl | rfl <;> rcases hlv with rfl | rfl | rfl <;>
      rcases hlv' with rfl | rfl | rfl <;> exact absurd hname (by decide)
  · obtain ⟨cols₂, hmem₂, hpr⟩ := pair_mem_lookup_getD h
    obtain ⟨_, hcols⟩ := row_of_mem_get_region_metric_none hmem₂
    subst hcols
    obtain ⟨lv', hlv', hname, _⟩ := pair_mem_level_columns hpr
    simp only [defaultLevels, List.mem_cons, List.not_mem_nil, or_false]
      at hlv'
    rcases hnm with rfl | rfl <;> rcases hlv with rfl | rfl | rfl <;>
      rcases hlv' with rfl | rfl | rfl <;> exact absurd hname (by decide)
  · obtain ⟨cols₂, hmem₂, hpr⟩ := pair_mem_lookup_getD h
    obtain ⟨hg, hcols⟩ := row_of_mem_get_region_metric_some hmem₂
    subst hcols
    obtain ⟨lv', hlv', hname, hval⟩ := pair_mem_level_columns hpr
    simp only [defaultLevels, List.mem_cons, List.not_mem_nil, or_false]
      at hlv'
    rcases hnm with rfl | rfl <;> rcases hlv with rfl | rfl | rfl <;>
      rcases hlv' with rfl | rfl | rfl <;>
      first
        | exact absurd hname (by decide)
        | (subst hval
           exact frac_value_le_one obs defaultExclude rg _ hg _
             (count_gt5_le_count_unique _))
  · obtain ⟨cols₂, hmem₂, hpr⟩ := pair_mem_lookup_getD h
    obtain ⟨_, hcols⟩ := row_of_mem_get_region_metric_none hmem₂
    subst hcols
    obtain ⟨lv', hlv', hname, _⟩ := pair_mem_level_columns hpr
    simp only [defaultLevels, List.mem_cons, List.not_mem_nil, or_false]
      at hlv'
    rcases hnm with rfl | rfl <;> rcases hlv with rfl | rfl | rfl <;>
      rcases hlv' with rfl | rfl | rfl <;> exact absurd hname (by decide)
  · obtain ⟨cols₂, hmem₂, hpr⟩ := pair_mem_lookup_getD h
    obtain ⟨_, hcols⟩ := row_of_mem_get_region_metric_none hmem₂
    subst hcols
    obtain ⟨lv', hlv', hname, _⟩ := pair_mem_level_columns hpr
    simp only [defaultLevels, List.mem_cons, List.not_mem_nil, or_false]
      at hlv'
    rcases hnm with rfl | rfl <;> rcases hlv with rfl | rfl | rfl <;>
      rcases hlv' with rfl | rfl | rfl <;> exact absurd hname (by decide)
  · rw [List.mem_singleton, Prod.mk.injEq] at h
    obtain ⟨hname, _⟩ := h
    rcases hnm with rfl | rfl <;> rcases hlv with rfl | rfl | rfl <;>
      exact absurd hname (by decide)

/-- C10 witness: the theorem applied at a one-cell table, whose
`frac_cluster` value is 1. -/
theorem calculate_diversity_metrics_frac_le_one_witness : (1 : ℚ) ≤ 1 :=
  calculate_diversity_metrics_frac_le_one (fun q => q)
    [mkRow "A" ("c" : String)] "A"
    [("count_cluster", 1), ("count_supertype", 1), ("count_subclass", 1),
     ("frac_cluster", 1), ("frac_supertype", 1), ("frac_subclass", 1),
     ("count_norm2cells_cluster", 1), ("count_norm2cells_supertype", 1),
     ("count_norm2cells_subclass", 1),
     ("count_gt5_cluster", 0), ("count_gt5_supertype", 0),
     ("count_gt5_subclass", 0),
     ("frac_gt5_cluster", 0), ("frac_gt5_supertype", 0),
     ("frac_gt5_subclass", 0),
     ("inverse_simpsons_cluster", 1), ("inverse_simpsons_supertype", 1),
     ("inverse_simpsons_subclass", 1),
     ("shannon_index_cluster", -1), ("shannon_index_supertype", -1),
     ("shannon_index_subclass", -1),
     ("count_cells", 1)]
    "cluster" 1
    (by with_unfolding_all decide) (by decide)
    (Or.inl (by with_unfolding_all decide))
